import Mathlib

/-!
Shallow embedding of the sharded LRU cache in `main.go` (package `main`,
repository Stosan/Production-grade-LRU-cache-in-Go).

Modelling conventions:
* A Go `map[string]*Node` is modelled as an association list
  `List (String × α)` without duplicate keys (the no-duplicate property is a
  structural guarantee of Go maps and appears as a hypothesis where needed).
* The intrusive doubly-linked recency list with head/tail sentinels is
  modelled as the list of keys of its real nodes, front (MRU, `head.next`)
  first; the two sentinels are represented implicitly by the two ends of the
  list.  `removeNode`/`addToFront`/`moveToFront` become the corresponding
  list operations on the key of the node.
* Go `int` sizes are modelled as `Nat` (all reachable sizes are nonnegative);
  the requested total capacity is `Int` because `NewLRUCache` accepts
  negative values.  32-bit arithmetic (`uint32`, FNV-1a) is `Nat` with
  explicit `% 2 ^ 32`.
* `runtime.NumCPU()` is an environment input; it is passed to `NewLRUCache`
  as the extra parameter `ncpu`.
* Locks (`sync.RWMutex`) have no observable effect on the sequential
  semantics modelled here and are dropped.
-/

namespace HyperLRU

/-- Bytes of the UTF-8 encoding of a string, as the data `h.Write([]byte(key))`
consumes in `hash`. -/
def strBytes (s : String) : List Nat :=
  (s.data.flatMap String.utf8EncodeChar).map UInt8.toNat

/-- FNV-1a 32-bit hash of a string, the algorithm of `hash/fnv`'s `New32a`
used by `LRUCache.hash`: offset basis 2166136261, prime 16777619, per byte
`h = (h XOR b) * prime  (mod 2^32)`. -/
def fnv1a (key : String) : Nat :=
  (strBytes key).foldl (fun h b => ((h ^^^ b) * 16777619) % 2 ^ 32) 2166136261

/-- Lookup in a Go map modelled as an association list (first matching key). -/
def lookupVal {α : Type} : List (String × α) → String → Option α
  | [], _ => none
  | p :: rest, k => if p.1 = k then some p.2 else lookupVal rest k

/-- Value replacement at an existing key (`node.value = value` through the map
entry); replaces the first entry whose key matches. -/
def setVal {α : Type} : List (String × α) → String → α → List (String × α)
  | [], _, _ => []
  | p :: rest, k, v => if p.1 = k then (k, v) :: rest else p :: setVal rest k v

/-- Deletion from a Go map modelled as an association list
(`delete(s.cache, key)`); removes the first entry whose key matches. -/
def eraseKey {α : Type} : List (String × α) → String → List (String × α)
  | [], _ => []
  | p :: rest, k => if p.1 = k then rest else p :: eraseKey rest k

/-- Removal of the first occurrence of a key from the recency list, the list
counterpart of unlinking one node (`removeNode`). -/
def eraseFirst : List String → String → List String
  | [], _ => []
  | a :: rest, k => if a = k then rest else a :: eraseFirst rest k

/-- Number of entries of an association list carrying a given key. -/
def countKey {α : Type} (l : List (String × α)) (k : String) : Nat :=
  l.countP (fun p => p.1 == k)

/-- One `Shard` of `main.go`: capacity, live-entry count `size`, the lookup
map `cache`, and the recency list (`head`/`tail` sentinels implicit, MRU
first).  The `sync.RWMutex` is dropped (sequential model). -/
structure Shard (α : Type) where
  capacity : Nat
  size : Nat
  cache : List (String × α)
  order : List String
deriving DecidableEq, Repr

/-- The `LRUCache` struct: the shard slice and the shard-selection mask. -/
structure LRUCache (α : Type) where
  shards : List (Shard α)
  shardMask : Nat
deriving DecidableEq, Repr

/-- Source `nextPowerOf2`: returns 1 on input 0 and otherwise returns its
argument unchanged (despite its name it computes no power of two). -/
def nextPowerOf2 (n : Nat) : Nat :=
  if n = 0 then 1 else n

/-- Source `newShard`: empty map, size 0, sentinels linked to each other
(empty recency list). -/
def newShard {α : Type} (capacity : Nat) : Shard α :=
  { capacity := capacity, size := 0, cache := [], order := [] }

/-- Source `NewLRUCache`.  `ncpu` stands for `runtime.NumCPU()`;
`uint32(runtime.NumCPU() * 4)` is `(ncpu * 4) % 2^32`.  The two clamps
(`< 16` then `< 1024`) and the shard-capacity clamp (`< 1` to 1, after the
truncating Go division `capacity / int(numShards)`) are as in the source;
there is no rejection path for any requested capacity. -/
def NewLRUCache (α : Type) (capacity : Int) (ncpu : Nat) : LRUCache α :=
  let numShards0 := nextPowerOf2 ((ncpu * 4) % 2 ^ 32)
  let numShards1 := if numShards0 < 16 then 16 else numShards0
  let numShards := if numShards1 < 1024 then 1024 else numShards1
  let sc : Int := capacity.tdiv (numShards : Int)
  let shardCapacity : Nat := if sc < 1 then 1 else sc.toNat
  { shards := List.replicate numShards (newShard shardCapacity)
    shardMask := numShards - 1 }

/-- Source method `hash` on `LRUCache` (receiver unused). -/
def LRUCache.hash {α : Type} (_c : LRUCache α) (key : String) : Nat :=
  fnv1a key

/-- Index computed inside `getShard`: `c.hash(key) & c.shardMask`. -/
def LRUCache.shardIdx {α : Type} (c : LRUCache α) (key : String) : Nat :=
  c.hash key &&& c.shardMask

/-- Source `getShard`: `c.shards[c.hash(key)&c.shardMask]`.  Out-of-range
access (impossible for constructed caches, see the bounds theorem) falls back
to a default; Go would panic there. -/
def LRUCache.getShard {α : Type} (c : LRUCache α) (key : String) : Shard α :=
  c.shards.getD (c.shardIdx key) (newShard 0)

/-- Source `removeNode`, acting through the node's key. -/
def Shard.removeNode {α : Type} (s : Shard α) (k : String) : Shard α :=
  { s with order := eraseFirst s.order k }

/-- Source `addToFront`, acting through the node's key. -/
def Shard.addToFront {α : Type} (s : Shard α) (k : String) : Shard α :=
  { s with order := k :: s.order }

/-- Source `moveToFront` = `removeNode` then `addToFront`. -/
def Shard.moveToFront {α : Type} (s : Shard α) (k : String) : Shard α :=
  (s.removeNode k).addToFront k

/-- Per-shard part of `Get`: on a hit, move the node to the front and return
its value; on a miss return not-found and leave the shard untouched. -/
def Shard.get {α : Type} (s : Shard α) (k : String) : Option α × Shard α :=
  match lookupVal s.cache k with
  | some v => (some v, s.moveToFront k)
  | none => (none, s)

/-- Per-shard part of `Put`.  Existing key: replace the value, move to front.
New key: insert in map, add to front, increment size.  The final overflow
check `if shard.size > shard.capacity { return // need a better logic }`
returns without evicting, which the equal branches mirror. -/
def Shard.put {α : Type} (s : Shard α) (k : String) (v : α) : Shard α :=
  match lookupVal s.cache k with
  | some _ => ({ s with cache := setVal s.cache k v }).moveToFront k
  | none =>
    let s1 := ({ s with cache := (k, v) :: s.cache }).addToFront k
    let s2 := { s1 with size := s1.size + 1 }
    if s2.size > s2.capacity then s2 else s2

/-- Source `evictLRU`: remove the node before the tail sentinel (the last
real node) unless the list is empty, delete it from the map, decrement size. -/
def Shard.evictLRU {α : Type} (s : Shard α) : Shard α :=
  match s.order.getLast? with
  | some k =>
    { s with order := s.order.dropLast, cache := eraseKey s.cache k
             size := s.size - 1 }
  | none => s

/-- Per-shard part of `Clear`: fresh map, sentinels relinked, size 0. -/
def Shard.clear {α : Type} (s : Shard α) : Shard α :=
  { s with cache := [], order := [], size := 0 }

/-- Source `Get`: select the shard, delegate, write the updated shard back. -/
def LRUCache.Get {α : Type} (c : LRUCache α) (key : String) :
    Option α × LRUCache α :=
  let i := c.shardIdx key
  let r := (c.getShard key).get key
  (r.1, { c with shards := c.shards.set i r.2 })

/-- Source `Put`: select the shard, delegate, write the updated shard back. -/
def LRUCache.Put {α : Type} (c : LRUCache α) (key : String) (v : α) :
    LRUCache α :=
  let i := c.shardIdx key
  { c with shards := c.shards.set i ((c.getShard key).put key v) }

/-- Source `Clear`: clear every shard. -/
def LRUCache.Clear {α : Type} (c : LRUCache α) : LRUCache α :=
  { c with shards := c.shards.map Shard.clear }

/-- Source `Size`: sum of the shard sizes. -/
def LRUCache.Size {α : Type} (c : LRUCache α) : Nat :=
  c.shards.foldl (fun total s => total + s.size) 0

/-- Public operations of the cache, for statements about a whole lifetime. -/
inductive Op (α : Type) where
  | get (key : String)
  | put (key : String) (v : α)
  | clear

/-- Effect of one public operation on the cache state. -/
def applyOp {α : Type} (c : LRUCache α) : Op α → LRUCache α
  | .get k => (c.Get k).2
  | .put k v => c.Put k v
  | .clear => c.Clear

/-- Effect of a sequence of public operations, first operation first. -/
def applyOps {α : Type} (c : LRUCache α) (ops : List (Op α)) : LRUCache α :=
  ops.foldl applyOp c

/-- Spec-side definition of `nextPowerOfTwo`, following the words of the
spec (§4.1: shard count "chosen as max(16, nextPowerOfTwo(4 × available
parallelism))"): the least power of two that is at least `n`.  It exists only
to be compared with what the source computes. -/
def spec_nextPowerOfTwo (n : Nat) : Nat :=
  if n ≤ 1 then 1 else 2 * spec_nextPowerOfTwo ((n + 1) / 2)
termination_by n
decreasing_by omega

/-- Well-formedness of a shard, the structural facts Go guarantees for the
real data structure: the keys of the lookup map are, up to order, exactly the
keys on the recency list (every node is in the map iff it is linked in the
list), no key occurs twice on the list, and `size` counts the nodes.  It is
the inductive strengthening of the `size == table == list` invariant. -/
def Shard.WF {α : Type} (s : Shard α) : Prop :=
  (s.cache.map Prod.fst).Perm s.order ∧ s.order.Nodup ∧ s.size = s.order.length

end HyperLRU

namespace HyperLRU

/-! Helper lemmas about the list model. -/

theorem set_getD_self {β : Type} :
    ∀ (l : List β) (i : Nat) (d : β), l.set i (l.getD i d) = l := by
  intro l
  induction l with
  | nil => intro i d; rfl
  | cons a t ih =>
    intro i d
    cases i with
    | zero => rfl
    | succ j => simpa using ih j d

theorem getD_set_self {β : Type} :
    ∀ (l : List β) (i : Nat) (x d : β), i < l.length → (l.set i x).getD i d = x := by
  intro l
  induction l with
  | nil => intro i x d h; simp at h
  | cons a t ih =>
    intro i x d h
    cases i with
    | zero => rfl
    | succ j => simpa using ih j x d (by simpa using h)

theorem foldl_add_size {α : Type} :
    ∀ (l : List (Shard α)) (t : Nat),
      l.foldl (fun a s => a + s.size) t = t + (l.map Shard.size).sum := by
  intro l
  induction l with
  | nil => intro t; simp
  | cons a r ih => intro t; simp [ih]; omega

theorem sum_map_size_set {α : Type} :
    ∀ (l : List (Shard α)) (i : Nat) (x : Shard α) (d : Shard α), i < l.length →
      ((l.set i x).map Shard.size).sum + (l.getD i d).size
        = (l.map Shard.size).sum + x.size := by
  intro l
  induction l with
  | nil => intro i x d h; simp at h
  | cons a t ih =>
    intro i x d h
    cases i with
    | zero => simp; omega
    | succ j =>
      have hih := ih j x d (by simpa using h)
      have hset : (a :: t).set (j + 1) x = a :: t.set j x := rfl
      have hget : (a :: t).getD (j + 1) d = t.getD j d := rfl
      rw [hset, hget, List.map_cons, List.sum_cons, List.map_cons, List.sum_cons]
      omega

theorem lookupVal_eq_none_iff {α : Type} :
    ∀ (l : List (String × α)) (k : String),
      lookupVal l k = none ↔ k ∉ l.map Prod.fst := by
  intro l k
  induction l with
  | nil => simp [lookupVal]
  | cons p t ih =>
    by_cases hp : p.1 = k
    · simp only [lookupVal, if_pos hp, List.map_cons]
      constructor
      · intro h; cases h
      · intro h; exact absurd (List.mem_cons.mpr (Or.inl hp.symm)) h
    · simp only [lookupVal, if_neg hp, List.map_cons, List.mem_cons, not_or]
      rw [ih]
      constructor
      · intro h; exact ⟨fun he => hp he.symm, h⟩
      · intro h; exact h.2

theorem mem_of_lookupVal_some {α : Type} {l : List (String × α)} {k : String}
    {v : α} (h : lookupVal l k = some v) : k ∈ l.map Prod.fst := by
  by_contra hk
  rw [← lookupVal_eq_none_iff] at hk
  rw [h] at hk
  cases hk

theorem keys_setVal {α : Type} :
    ∀ (l : List (String × α)) (k : String) (v : α),
      (setVal l k v).map Prod.fst = l.map Prod.fst := by
  intro l k v
  induction l with
  | nil => rfl
  | cons p t ih =>
    by_cases hp : p.1 = k <;> simp [setVal, hp, ih]

theorem lookupVal_setVal_self {α : Type} :
    ∀ (l : List (String × α)) (k : String) (v w : α),
      lookupVal l k = some w → lookupVal (setVal l k v) k = some v := by
  intro l k v w
  induction l with
  | nil => intro h; cases h
  | cons p t ih =>
    intro h
    by_cases hp : p.1 = k
    · simp [setVal, hp, lookupVal]
    · simp only [lookupVal, if_neg hp] at h
      simp [setVal, hp, lookupVal, ih h]

theorem keys_eraseKey {α : Type} :
    ∀ (l : List (String × α)) (k : String),
      (eraseKey l k).map Prod.fst = eraseFirst (l.map Prod.fst) k := by
  intro l k
  induction l with
  | nil => rfl
  | cons p t ih =>
    by_cases hp : p.1 = k <;> simp [eraseKey, eraseFirst, hp, ih]

theorem countKey_cons_self {α : Type} (l : List (String × α)) (k : String)
    (v : α) : countKey ((k, v) :: l) k = countKey l k + 1 := by
  simp [countKey, List.countP_cons]

theorem countKey_setVal {α : Type} :
    ∀ (l : List (String × α)) (k : String) (v : α),
      countKey (setVal l k v) k = countKey l k := by
  intro l k v
  induction l with
  | nil => rfl
  | cons p t ih =>
    by_cases hp : p.1 = k <;>
      simp [setVal, hp, countKey, List.countP_cons] at ih ⊢
    simp [ih, hp]

theorem countKey_eq_zero {α : Type} :
    ∀ (l : List (String × α)) (k : String),
      lookupVal l k = none → countKey l k = 0 := by
  intro l k
  induction l with
  | nil => intro _; rfl
  | cons p t ih =>
    intro h
    by_cases hp : p.1 = k
    · simp [lookupVal, hp] at h
    · simp only [lookupVal, if_neg hp] at h
      have h0 := ih h
      rw [countKey, List.countP_cons]
      rw [countKey] at h0
      rw [h0]
      simp [hp]

theorem countKey_eq_one {α : Type} :
    ∀ (l : List (String × α)) (k : String) (v : α),
      (l.map Prod.fst).Nodup → lookupVal l k = some v → countKey l k = 1 := by
  intro l k v
  induction l with
  | nil => intro _ h; cases h
  | cons p t ih =>
    intro hnd h
    simp only [List.map_cons, List.nodup_cons] at hnd
    by_cases hp : p.1 = k
    · have h0 : countKey t k = 0 := by
        apply countKey_eq_zero
        rw [lookupVal_eq_none_iff]
        rw [← hp]
        exact hnd.1
      rw [countKey, List.countP_cons]
      rw [countKey] at h0
      rw [h0]
      simp [hp]
    · simp only [lookupVal, if_neg hp] at h
      have h1 := ih hnd.2 h
      rw [countKey, List.countP_cons]
      rw [countKey] at h1
      rw [h1]
      simp [hp]

theorem eraseFirst_of_not_mem :
    ∀ {l : List String} {k : String}, k ∉ l → eraseFirst l k = l := by
  intro l
  induction l with
  | nil => intro k _; rfl
  | cons a t ih =>
    intro k hk
    simp only [List.mem_cons, not_or] at hk
    have ha : ¬a = k := fun h => hk.1 h.symm
    simp [eraseFirst, ha, ih hk.2]

theorem perm_cons_eraseFirst :
    ∀ {l : List String} {k : String}, k ∈ l → l.Perm (k :: eraseFirst l k) := by
  intro l
  induction l with
  | nil => intro k h; cases h
  | cons a t ih =>
    intro k hk
    by_cases ha : a = k
    · subst ha; simp [eraseFirst]
    · have hk' : k ∈ t := by
        rcases List.mem_cons.mp hk with h | h
        · exact (ha h.symm).elim
        · exact h
      have h1 : (a :: t).Perm (a :: k :: eraseFirst t k) := (ih hk').cons a
      have h2 : (a :: k :: eraseFirst t k).Perm (k :: a :: eraseFirst t k) :=
        List.Perm.swap k a _
      have h3 : k :: a :: eraseFirst t k = k :: eraseFirst (a :: t) k := by
        simp [eraseFirst, ha]
      exact h3 ▸ h1.trans h2

theorem mem_of_mem_eraseFirst :
    ∀ {l : List String} {k x : String}, x ∈ eraseFirst l k → x ∈ l := by
  intro l
  induction l with
  | nil => intro k x h; cases h
  | cons a t ih =>
    intro k x h
    by_cases ha : a = k
    · simp only [eraseFirst, if_pos ha] at h
      exact List.mem_cons_of_mem a h
    · simp only [eraseFirst, if_neg ha, List.mem_cons] at h
      rcases h with h | h
      · exact h ▸ List.mem_cons_self a t
      · exact List.mem_cons_of_mem a (ih h)

theorem nodup_eraseFirst :
    ∀ {l : List String} (k : String), l.Nodup → (eraseFirst l k).Nodup := by
  intro l
  induction l with
  | nil => intro k _; exact List.nodup_nil
  | cons a t ih =>
    intro k hnd
    rw [List.nodup_cons] at hnd
    by_cases ha : a = k
    · simp [eraseFirst, ha, hnd.2]
    · rw [eraseFirst, if_neg ha, List.nodup_cons]
      exact ⟨fun h => hnd.1 (mem_of_mem_eraseFirst h), ih k hnd.2⟩

theorem not_mem_eraseFirst :
    ∀ {l : List String} {k : String}, l.Nodup → k ∉ eraseFirst l k := by
  intro l
  induction l with
  | nil => intro _ _; simp [eraseFirst]
  | cons a t ih =>
    intro k hnd
    rw [List.nodup_cons] at hnd
    by_cases ha : a = k
    · subst ha; simpa [eraseFirst] using hnd.1
    · simp only [eraseFirst, if_neg ha, List.mem_cons, not_or]
      exact ⟨fun h => ha h.symm, ih hnd.2⟩

theorem length_eraseFirst :
    ∀ {l : List String} {k : String}, k ∈ l →
      (eraseFirst l k).length + 1 = l.length := by
  intro l
  induction l with
  | nil => intro k h; cases h
  | cons a t ih =>
    intro k hk
    by_cases ha : a = k
    · simp [eraseFirst, ha]
    · have hk' : k ∈ t := by
        rcases List.mem_cons.mp hk with h | h
        · exact (ha h.symm).elim
        · exact h
      simp only [eraseFirst, if_neg ha, List.length_cons]
      rw [← ih hk']

theorem perm_eraseFirst (k : String) :
    ∀ {l₁ l₂ : List String}, l₁.Perm l₂ →
      (eraseFirst l₁ k).Perm (eraseFirst l₂ k) := by
  intro l₁ l₂ h
  induction h with
  | nil => exact List.Perm.refl _
  | cons a h ih =>
    by_cases ha : a = k
    · simpa [eraseFirst, ha] using h
    · simpa [eraseFirst, ha] using ih.cons a
  | swap a b l =>
    by_cases hb : b = k <;> by_cases ha : a = k
    · subst ha; subst hb; simp [eraseFirst]
    · subst hb; simp [eraseFirst, ha]
    · subst ha; simp [eraseFirst, hb]
    · simpa [eraseFirst, ha, hb] using List.Perm.swap a b _
  | trans h₁ h₂ ih₁ ih₂ => exact ih₁.trans ih₂

theorem eraseFirst_concat_self {t : List String} {k : String} (h : k ∉ t) :
    eraseFirst (t ++ [k]) k = t := by
  induction t with
  | nil => simp [eraseFirst]
  | cons a r ih =>
    simp only [List.mem_cons, not_or] at h
    have ha : ¬a = k := fun hh => h.1 hh.symm
    simp [eraseFirst, ha, ih h.2]

theorem exists_concat_of_getLast? :
    ∀ (l : List String) (k : String), l.getLast? = some k →
      ∃ t, l = t ++ [k] := by
  intro l
  induction l with
  | nil => intro k h; cases h
  | cons a t ih =>
    intro k h
    cases t with
    | nil =>
      simp [List.getLast?] at h
      exact ⟨[], by simp [h]⟩
    | cons b r =>
      rw [List.getLast?_cons_cons] at h
      obtain ⟨t', ht⟩ := ih k h
      exact ⟨a :: t', by simp [ht]⟩

/-! Shape lemmas for the shard operations. -/

theorem put_of_lookup_some {α : Type} {s : Shard α} {k : String} {w : α}
    (v : α) (hl : lookupVal s.cache k = some w) :
    s.put k v
      = { s with cache := setVal s.cache k v
                 order := k :: eraseFirst s.order k } := by
  simp only [Shard.put, hl, Shard.moveToFront, Shard.removeNode,
    Shard.addToFront]

theorem put_of_lookup_none {α : Type} {s : Shard α} {k : String}
    (v : α) (hl : lookupVal s.cache k = none) :
    s.put k v
      = { s with cache := (k, v) :: s.cache, order := k :: s.order
                 size := s.size + 1 } := by
  simp only [Shard.put, hl, Shard.addToFront, ite_self]

theorem lookupVal_put_self {α : Type} (s : Shard α) (k : String) (v : α) :
    lookupVal (s.put k v).cache k = some v := by
  cases hl : lookupVal s.cache k with
  | some w =>
    rw [put_of_lookup_some v hl]
    exact lookupVal_setVal_self _ _ _ _ hl
  | none =>
    rw [put_of_lookup_none v hl]
    simp [lookupVal]

/-! Preservation of shard well-formedness by the operations. -/

theorem wf_get {α : Type} (s : Shard α) (k : String) (h : s.WF) :
    ((s.get k).2).WF := by
  obtain ⟨hp, hnd, hsz⟩ := h
  cases hl : lookupVal s.cache k with
  | none => simp only [Shard.get, hl]; exact ⟨hp, hnd, hsz⟩
  | some v =>
    simp only [Shard.get, hl, Shard.moveToFront, Shard.removeNode,
      Shard.addToFront]
    have hkmem : k ∈ s.order := hp.mem_iff.mp (mem_of_lookupVal_some hl)
    unfold Shard.WF
    refine ⟨?_, ?_, ?_⟩
    · exact hp.trans (perm_cons_eraseFirst hkmem)
    · rw [List.nodup_cons]
      exact ⟨not_mem_eraseFirst hnd, nodup_eraseFirst k hnd⟩
    · have := length_eraseFirst hkmem
      simp only [List.length_cons]
      omega

theorem wf_put {α : Type} (s : Shard α) (k : String) (v : α) (h : s.WF) :
    (s.put k v).WF := by
  obtain ⟨hp, hnd, hsz⟩ := h
  cases hl : lookupVal s.cache k with
  | some w =>
    rw [put_of_lookup_some v hl]
    have hkmem : k ∈ s.order := hp.mem_iff.mp (mem_of_lookupVal_some hl)
    unfold Shard.WF
    refine ⟨?_, ?_, ?_⟩
    · rw [keys_setVal]
      exact hp.trans (perm_cons_eraseFirst hkmem)
    · rw [List.nodup_cons]
      exact ⟨not_mem_eraseFirst hnd, nodup_eraseFirst k hnd⟩
    · have := length_eraseFirst hkmem
      simp only [List.length_cons]
      omega
  | none =>
    rw [put_of_lookup_none v hl]
    have hknot : k ∉ s.order := by
      intro hmem
      exact (lookupVal_eq_none_iff s.cache k).mp hl (hp.mem_iff.mpr hmem)
    unfold Shard.WF
    refine ⟨?_, ?_, ?_⟩
    · simp only [List.map_cons]
      exact hp.cons k
    · rw [List.nodup_cons]
      exact ⟨hknot, hnd⟩
    · simp only [List.length_cons]
      omega

theorem wf_evict {α : Type} (s : Shard α) (h : s.WF) : (s.evictLRU).WF := by
  obtain ⟨hp, hnd, hsz⟩ := h
  cases hl : s.order.getLast? with
  | none => simp only [Shard.evictLRU, hl]; exact ⟨hp, hnd, hsz⟩
  | some k =>
    simp only [Shard.evictLRU, hl]
    obtain ⟨t, ht⟩ := exists_concat_of_getLast? s.order k hl
    have hnd2 : t.Nodup ∧ k ∉ t := by
      rw [ht, List.nodup_append] at hnd
      exact ⟨hnd.1, fun hk => hnd.2.2 hk (by simp)⟩
    unfold Shard.WF
    dsimp only
    refine ⟨?_, ?_, ?_⟩
    · rw [keys_eraseKey, ht, List.dropLast_concat]
      have h1 : (eraseFirst (s.cache.map Prod.fst) k).Perm (eraseFirst s.order k) :=
        perm_eraseFirst k hp
      rw [ht, eraseFirst_concat_self hnd2.2] at h1
      exact h1
    · rw [ht, List.dropLast_concat]
      exact hnd2.1
    · rw [ht, List.dropLast_concat]
      rw [ht] at hsz
      simp only [List.length_append, List.length_cons, List.length_nil] at hsz
      omega

/-! Lemmas about the cache-level dispatch. -/

theorem getShard_Put_self {α : Type} (c : LRUCache α) (k : String) (v : α)
    (hidx : c.shardIdx k < c.shards.length) :
    (c.Put k v).getShard k = (c.getShard k).put k v := by
  simp only [LRUCache.Put, LRUCache.getShard, LRUCache.shardIdx,
    LRUCache.hash] at hidx ⊢
  exact getD_set_self _ _ _ _ hidx

theorem Size_set_same {α : Type} (c : LRUCache α) (i : Nat) (x : Shard α)
    (hi : i < c.shards.length)
    (hx : x.size = (c.shards.getD i (newShard 0)).size) :
    LRUCache.Size { c with shards := c.shards.set i x } = c.Size := by
  unfold LRUCache.Size
  dsimp only
  rw [foldl_add_size, foldl_add_size]
  have := sum_map_size_set c.shards i x (newShard 0) hi
  omega

theorem clear_foldl_size {α : Type} :
    ∀ (l : List (Shard α)) (t : Nat),
      (l.map Shard.clear).foldl (fun a s => a + s.size) t = t := by
  intro l
  induction l with
  | nil => intro t; rfl
  | cons a r ih => intro t; simpa [Shard.clear] using ih t

theorem clear_getD_cache {α : Type} :
    ∀ (l : List (Shard α)) (i : Nat),
      ((l.map Shard.clear).getD i (newShard 0)).cache = [] := by
  intro l
  induction l with
  | nil => intro i; rfl
  | cons a t ih =>
    intro i
    cases i with
    | zero => rfl
    | succ j => exact ih j

theorem clear_all_empty {α : Type} :
    ∀ (l : List (Shard α)),
      ((l.map Shard.clear).all fun s => s.cache.isEmpty && s.order.isEmpty)
        = true := by
  intro l
  induction l with
  | nil => rfl
  | cons a t ih => simp [Shard.clear]

theorem applyOp_shardIdx {α : Type} (c : LRUCache α) (op : Op α)
    (key : String) : (applyOp c op).shardIdx key = c.shardIdx key := by
  cases op <;> rfl

theorem masked_index_lt {h n : Nat} (hn : 1 ≤ n) : h &&& (n - 1) < n := by
  have h1 : h &&& (n - 1) ≤ n - 1 := Nat.and_le_right
  omega

set_option maxRecDepth 100000 in
/-- C1: the claim says every shard's size stays at or below its capacity
because `Put` evicts on overflow.  Refutation on the code: `NewLRUCache 1024`
with one CPU gives 1024 shards of capacity 1; the keys `"k0"` and `"k350"`
hash to the same shard, and after putting both, that shard holds both entries
with size 2 > capacity 1 — the overflow branch of `Put` returns without
calling `evictLRU`. -/
theorem put_overflow_exceeds_capacity :
    ((((NewLRUCache Nat 1024 1).Put "k0" 1).Put "k350" 2).getShard "k0").capacity = 1
    ∧ ((((NewLRUCache Nat 1024 1).Put "k0" 1).Put "k350" 2).getShard "k0").size = 2
    ∧ lookupVal ((((NewLRUCache Nat 1024 1).Put "k0" 1).Put "k350" 2).getShard "k0").cache "k0"
        = some 1
    ∧ lookupVal ((((NewLRUCache Nat 1024 1).Put "k0" 1).Put "k350" 2).getShard "k0").cache "k350"
        = some 2 := by
  exact ⟨rfl, rfl, rfl, rfl⟩

/-- C2: the claim (spec's recency example, capacity 2): after `put(A)`,
`put(B)`, `get(A)`, `put(C)` the key `B` is evicted and only `A`, `C` remain.
Refutation on the code: no eviction happens; `B` is still resident, the shard
holds all three keys and size 3 exceeds capacity 2 (the recency order
`[C, A, B]` does have `B` at the back, but `Put` never evicts it). -/
theorem recency_eviction_not_performed :
    lookupVal (((((((newShard (α := Nat) 2).put "A" 1).put "B" 2).get "A").2).put "C" 3).cache) "B"
        = some 2
    ∧ ((((((newShard (α := Nat) 2).put "A" 1).put "B" 2).get "A").2).put "C" 3).size = 3
    ∧ ((((((newShard (α := Nat) 2).put "A" 1).put "B" 2).get "A").2).put "C" 3).order
        = ["C", "A", "B"] := by
  exact ⟨rfl, rfl, rfl⟩

set_option maxRecDepth 100000 in
/-- C3: the claim says construction with zero or negative requested capacity
is rejected and yields no usable cache.  Refutation on the code:
`NewLRUCache` has no rejection path; with requested capacity 0 (or -5) it
returns a cache of 1024 shards of capacity 1 each, and that cache is usable
(a put followed by a get finds the value). -/
theorem construction_accepts_invalid_capacity :
    (NewLRUCache Nat 0 1).shards.length = 1024
    ∧ (((NewLRUCache Nat 0 1).Put "a" 7).Get "a").1 = some 7
    ∧ (((NewLRUCache Nat (-5) 1).Put "a" 7).Get "a").1 = some 7 := by
  exact ⟨rfl, rfl, rfl⟩

set_option maxRecDepth 100000 in
/-- C9: the claim says the shard count is `max(16, nextPowerOfTwo(4 ×
parallelism))`, a power of two, and bounded by the requested capacity.
Refutation on the code: with 1 CPU and capacity 10 the code produces 1024
shards (the formula gives 16, and 1024 exceeds the capacity 10); with 300
CPUs it produces 1200 shards, which is not a power of two (`nextPowerOf2`
returns its argument unchanged and the `< 1024` clamp overrides the `< 16`
one). -/
theorem shardCount_formula_violations :
    (NewLRUCache Nat 10 1).shards.length = 1024
    ∧ max 16 (spec_nextPowerOfTwo (4 * 1)) = 16
    ∧ 10 < (NewLRUCache Nat 10 1).shards.length
    ∧ (NewLRUCache Nat 100000 300).shards.length = 1200
    ∧ ∀ m : Nat, 2 ^ m ≠ 1200 := by
  have e1 : spec_nextPowerOfTwo 1 = 1 := by rw [spec_nextPowerOfTwo]; norm_num
  have e2 : spec_nextPowerOfTwo 2 = 2 := by rw [spec_nextPowerOfTwo]; norm_num [e1]
  have e4 : spec_nextPowerOfTwo 4 = 4 := by rw [spec_nextPowerOfTwo]; norm_num [e2]
  refine ⟨rfl, by norm_num [e4], by decide, rfl, ?_⟩
  intro m h
  have hm : m < 11 := by
    by_contra hm
    push_neg at hm
    have h2 : (2 : Nat) ^ 11 ≤ 2 ^ m := Nat.pow_le_pow_right (by norm_num) hm
    omega
  interval_cases m <;> norm_num at h

/-- C4: for a fixed cache instance the key-to-shard mapping is deterministic
and stable over the instance's whole lifetime: after any sequence of public
operations (gets, puts, clears) the selected shard index for every key is the
same as on the fresh instance.  (The index is a pure function of the key and
the `shardMask` field, and no operation ever changes `shardMask`.) -/
theorem shard_selection_stable {α : Type} (c : LRUCache α) (key : String)
    (ops : List (Op α)) :
    (applyOps c ops).shardIdx key = c.shardIdx key := by
  induction ops generalizing c with
  | nil => rfl
  | cons op rest ih =>
    have h1 : applyOps c (op :: rest) = applyOps (applyOp c op) rest := rfl
    rw [h1, ih, applyOp_shardIdx]

/-- C5: `Get` on a key that is absent from its shard's lookup table (never
inserted, or already evicted) returns not-found and returns the cache state
completely unchanged — no shard's size, lookup table or recency order is
altered. -/
theorem get_miss_no_side_effect {α : Type} (c : LRUCache α) (k : String)
    (h : lookupVal (c.getShard k).cache k = none) :
    c.Get k = (none, c) := by
  unfold LRUCache.Get
  simp only [Shard.get, h]
  have h2 : c.shards.set (c.shardIdx k) (c.getShard k) = c.shards := by
    unfold LRUCache.getShard
    exact set_getD_self _ _ _
  rw [h2]

/-- Witness for C5 at a concrete cache: one shard holding only `"a"`, probed
with the absent key `"b"`. -/
theorem get_miss_no_side_effect_witness :
    lookupVal ((({ shards := [{ capacity := 2, size := 1, cache := [("a", 5)]
                                order := ["a"] }], shardMask := 0 } :
        LRUCache Nat)).getShard "b").cache "b" = none
    ∧ ({ shards := [{ capacity := 2, size := 1, cache := [("a", 5)]
                      order := ["a"] }], shardMask := 0 } :
        LRUCache Nat).Get "b"
        = (none, { shards := [{ capacity := 2, size := 1, cache := [("a", 5)]
                                order := ["a"] }], shardMask := 0 }) :=
  ⟨by decide, get_miss_no_side_effect _ "b" (by decide)⟩

/-- C7: after `Clear`, `Size` reports 0, `Get` misses on every key (in
particular every key present before the clear), and every shard's lookup
table and recency list are empty (the list holds only the two linked
sentinels). -/
theorem clear_empties_cache {α : Type} (c : LRUCache α) (k : String) :
    (c.Clear).Size = 0
    ∧ ((c.Clear).Get k).1 = none
    ∧ ((c.Clear).shards.all fun s => s.cache.isEmpty && s.order.isEmpty)
        = true := by
  refine ⟨?_, ?_, ?_⟩
  · unfold LRUCache.Clear LRUCache.Size
    exact clear_foldl_size c.shards 0
  · have hc : ((c.Clear).getShard k).cache = [] := by
      unfold LRUCache.Clear LRUCache.getShard
      exact clear_getD_cache c.shards _
    have hl : lookupVal ((c.Clear).getShard k).cache k = none := by
      rw [hc]; rfl
    show (((c.Clear).getShard k).get k).1 = none
    simp only [Shard.get, hl]
  · unfold LRUCache.Clear
    exact clear_all_empty c.shards

/-- C10: for every constructed cache and every key, the shard index computed
by `getShard` — the FNV-1a hash masked with `shardMask = numShards - 1` — is
strictly below the length of the shard slice, so shard selection in `Get` and
`Put` never goes out of bounds (the shard count is always at least 1024). -/
theorem shard_index_in_bounds (α : Type) (capacity : Int) (ncpu : Nat)
    (key : String) :
    (NewLRUCache α capacity ncpu).shardIdx key
      < (NewLRUCache α capacity ncpu).shards.length := by
  unfold NewLRUCache LRUCache.shardIdx LRUCache.hash
  dsimp only
  rw [List.length_replicate]
  apply masked_index_lt
  split <;> split <;> omega

/-- C6: overwrite semantics of `Put`.  Under the Go-map guarantee that the
shard's lookup table has no duplicate keys (and with the shard index in
range, as it is for every constructed cache), `put(k,v1)` then `put(k,v2)`
leaves exactly one entry for `k`, holding `v2`, with `k`'s node at the front
of the recency list, and the second put leaves the total size unchanged. -/
theorem put_overwrite_semantics {α : Type} (c : LRUCache α) (k : String)
    (v1 v2 : α)
    (hidx : c.shardIdx k < c.shards.length)
    (hnd : ((c.getShard k).cache.map Prod.fst).Nodup) :
    countKey (((c.Put k v1).Put k v2).getShard k).cache k = 1
    ∧ lookupVal (((c.Put k v1).Put k v2).getShard k).cache k = some v2
    ∧ (((c.Put k v1).Put k v2).getShard k).order.head? = some k
    ∧ ((c.Put k v1).Put k v2).Size = (c.Put k v1).Size := by
  have hmask : (c.Put k v1).shardIdx k = c.shardIdx k := rfl
  have hlen : (c.Put k v1).shards.length = c.shards.length := by
    show (c.shards.set _ _).length = _
    exact List.length_set c.shards _ _
  have hidx1 : (c.Put k v1).shardIdx k < (c.Put k v1).shards.length := by
    rw [hmask, hlen]; exact hidx
  have hg1 : (c.Put k v1).getShard k = (c.getShard k).put k v1 :=
    getShard_Put_self c k v1 hidx
  have hg2 : ((c.Put k v1).Put k v2).getShard k
      = ((c.Put k v1).getShard k).put k v2 :=
    getShard_Put_self _ k v2 hidx1
  have hl1 : lookupVal ((c.getShard k).put k v1).cache k = some v1 :=
    lookupVal_put_self _ k v1
  have hshape : ((c.getShard k).put k v1).put k v2
      = { (c.getShard k).put k v1 with
          cache := setVal ((c.getShard k).put k v1).cache k v2
          order := k :: eraseFirst ((c.getShard k).put k v1).order k } :=
    put_of_lookup_some v2 hl1
  refine ⟨?_, ?_, ?_, ?_⟩
  · rw [hg2, hg1, hshape]
    dsimp only
    rw [countKey_setVal]
    cases hl0 : lookupVal (c.getShard k).cache k with
    | some w =>
      rw [put_of_lookup_some v1 hl0]
      dsimp only
      rw [countKey_setVal]
      exact countKey_eq_one _ k w hnd hl0
    | none =>
      rw [put_of_lookup_none v1 hl0]
      dsimp only
      rw [countKey_cons_self, countKey_eq_zero _ k hl0]
  · rw [hg2, hg1, hshape]
    dsimp only
    exact lookupVal_setVal_self _ _ _ _ hl1
  · rw [hg2, hg1, hshape]
    rfl
  · have hsize2 : (((c.getShard k).put k v1).put k v2).size
        = ((c.getShard k).put k v1).size := by
      rw [hshape]
    have hx : (((c.Put k v1).getShard k).put k v2).size
        = ((c.Put k v1).shards.getD ((c.Put k v1).shardIdx k)
            (newShard 0)).size := by
      show (((c.Put k v1).getShard k).put k v2).size
        = ((c.Put k v1).getShard k).size
      rw [hg1]
      exact hsize2
    exact Size_set_same (c.Put k v1) ((c.Put k v1).shardIdx k)
      (((c.Put k v1).getShard k).put k v2) hidx1 hx

/-- Witness for C6 at a concrete cache: one empty shard of capacity 2, key
`"a"`, values 1 then 2. -/
theorem put_overwrite_semantics_witness :
    (⟨[⟨2, 0, [], []⟩], 0⟩ : LRUCache Nat).shardIdx "a"
      < (⟨[⟨2, 0, [], []⟩], 0⟩ : LRUCache Nat).shards.length
    ∧ ((((⟨[⟨2, 0, [], []⟩], 0⟩ : LRUCache Nat)).getShard "a").cache.map
        Prod.fst).Nodup
    ∧ (countKey ((((⟨[⟨2, 0, [], []⟩], 0⟩ :
            LRUCache Nat).Put "a" 1).Put "a" 2).getShard "a").cache "a" = 1
      ∧ lookupVal ((((⟨[⟨2, 0, [], []⟩], 0⟩ :
            LRUCache Nat).Put "a" 1).Put "a" 2).getShard "a").cache "a"
          = some 2
      ∧ ((((⟨[⟨2, 0, [], []⟩], 0⟩ :
            LRUCache Nat).Put "a" 1).Put "a" 2).getShard "a").order.head?
          = some "a"
      ∧ (((⟨[⟨2, 0, [], []⟩], 0⟩ :
            LRUCache Nat).Put "a" 1).Put "a" 2).Size
          = ((⟨[⟨2, 0, [], []⟩], 0⟩ : LRUCache Nat).Put "a" 1).Size) :=
  ⟨by decide, by decide, put_overwrite_semantics _ "a" 1 2 (by decide) (by decide)⟩

/-- C8: the `size == lookup-table entries == recency-list nodes` invariant.
`Shard.WF` (keys of the table are a permutation of the duplicate-free recency
list, and `size` counts its nodes) holds for a fresh shard and is preserved
by `get`, `put`, `evictLRU` and `clear`; on every shard satisfying it, `size`
equals the number of lookup-table entries and the number of real recency-list
nodes.  `Shard.WF` is the inductive strengthening of the claim's triple
equality, so the equality holds in every reachable state. -/
theorem shard_size_invariant {α : Type} (s : Shard α) (k : String) (v : α)
    (cap : Nat) (h : s.WF) :
    (s.size = s.cache.length ∧ s.size = s.order.length)
    ∧ (newShard (α := α) cap).WF
    ∧ ((s.get k).2).WF
    ∧ (s.put k v).WF
    ∧ (s.evictLRU).WF
    ∧ (s.clear).WF := by
  obtain ⟨hp, hnd, hsz⟩ := h
  refine ⟨⟨?_, hsz⟩, ?_, wf_get s k ⟨hp, hnd, hsz⟩, wf_put s k v ⟨hp, hnd, hsz⟩,
    wf_evict s ⟨hp, hnd, hsz⟩, ?_⟩
  · have hlen := hp.length_eq
    rw [List.length_map] at hlen
    omega
  · simp [Shard.WF, newShard]
  · simp [Shard.WF, Shard.clear]

/-- Witness for C8 at a concrete shard: capacity 2 holding the single key
`"a"`, probed with key `"b"`, value 7, fresh-shard capacity 3. -/
theorem shard_size_invariant_witness :
    ({ capacity := 2, size := 1, cache := [("a", 5)], order := ["a"] } :
        Shard Nat).WF
    ∧ ((({ capacity := 2, size := 1, cache := [("a", 5)], order := ["a"] } :
          Shard Nat).size
        = ({ capacity := 2, size := 1, cache := [("a", 5)], order := ["a"] } :
          Shard Nat).cache.length
      ∧ ({ capacity := 2, size := 1, cache := [("a", 5)], order := ["a"] } :
          Shard Nat).size
        = ({ capacity := 2, size := 1, cache := [("a", 5)], order := ["a"] } :
          Shard Nat).order.length)
      ∧ (newShard (α := Nat) 3).WF
      ∧ ((({ capacity := 2, size := 1, cache := [("a", 5)], order := ["a"] } :
            Shard Nat).get "b").2).WF
      ∧ (({ capacity := 2, size := 1, cache := [("a", 5)], order := ["a"] } :
          Shard Nat).put "b" 7).WF
      ∧ (({ capacity := 2, size := 1, cache := [("a", 5)], order := ["a"] } :
          Shard Nat).evictLRU).WF
      ∧ (({ capacity := 2, size := 1, cache := [("a", 5)], order := ["a"] } :
          Shard Nat).clear).WF) :=
  ⟨⟨List.Perm.refl _, by decide, rfl⟩,
    shard_size_invariant _ "b" 7 3 ⟨List.Perm.refl _, by decide, rfl⟩⟩

end HyperLRU
